import Mathlib

/-!
Verification of `.github/scripts/validate-codeql-permissions.py`
(function `validate_codeql_permissions`), modelled as a shallow embedding.

The input of the validator is the value returned by `yaml.safe_load`,
a tree of mappings, sequences and scalars; we embed it as the inductive
type `Yaml`.  Mapping keys of workflow files are strings; Python `dict`
iteration order is insertion order, so a mapping is a list of pairs.
Operations of the Python runtime that the script uses (`not x`,
`k in x`, `x[k]`, `x.items()`, `x.get(k, d)`, iteration, `str`) are
embedded as `Except`-valued functions so that the `TypeError` /
`AttributeError` / `KeyError` behaviour of the source is preserved.
-/

set_option autoImplicit false

namespace CodeqlVal

/-- A parsed YAML value: scalars, sequences and (string-keyed) mappings. -/
inductive Yaml where
  | null : Yaml
  | bool : Bool → Yaml
  | int : Int → Yaml
  | str : String → Yaml
  | seq : List Yaml → Yaml
  | map : List (String × Yaml) → Yaml

/-- Python exceptions that the script can raise while traversing the tree. -/
inductive PyErr where
  | typeError : PyErr
  | attributeError : PyErr
  | keyError : PyErr
deriving DecidableEq

/-- Python truthiness (`bool(x)`): `None`, `False`, `0`, `""`, `[]`, `{}` are falsy. -/
def Yaml.truthy : Yaml → Bool
  | .null => false
  | .bool b => b
  | .int n => n != 0
  | .str s => s != ""
  | .seq l => !l.isEmpty
  | .map l => !l.isEmpty

/-- Whether the value is a mapping (Python `isinstance(x, dict)`). -/
def Yaml.isMap : Yaml → Bool
  | .map _ => true
  | _ => false

/-- Python `x == t` for a string literal `t`: only equal strings compare equal. -/
def Yaml.eqStr : Yaml → String → Bool
  | .str s, t => s == t
  | _, _ => false

/-- `startsWithL n l` : the char list `n` is an initial segment of `l`. -/
def startsWithL : List Char → List Char → Bool
  | [], _ => true
  | _ :: _, [] => false
  | a :: n, b :: l => a == b && startsWithL n l

/-- `hasSubL n l` : the char list `n` occurs contiguously inside `l`. -/
def hasSubL (n : List Char) : List Char → Bool
  | [] => n.isEmpty
  | b :: l => startsWithL n (b :: l) || hasSubL n l

/-- Python substring test `n in h` on strings. -/
def pySubstr (n h : String) : Bool := hasSubL n.data h.data

/-- Python membership `k in x` for a string `k`: substring on strings,
element membership on lists, key membership on dicts, `TypeError` otherwise. -/
def pyIn (k : String) : Yaml → Except PyErr Bool
  | .str s => .ok (pySubstr k s)
  | .seq l => .ok (l.any (fun v => v.eqStr k))
  | .map l => .ok ((List.lookup k l).isSome)
  | _ => .error .typeError

/-- Python subscription `x[k]` for a string key: dict lookup (`KeyError` when
absent), `TypeError` on every other shape. -/
def pyGetItem (v : Yaml) (k : String) : Except PyErr Yaml :=
  match v with
  | .map l =>
    match List.lookup k l with
    | some x => .ok x
    | none => .error .keyError
  | _ => .error .typeError

/-- Python `x.items()`: the pair list of a dict, `AttributeError` otherwise. -/
def pyItems : Yaml → Except PyErr (List (String × Yaml))
  | .map l => .ok l
  | _ => .error .attributeError

/-- Python `x.get(k, d)`: dict lookup with default, `AttributeError` otherwise. -/
def pyGet (v : Yaml) (k : String) (d : Yaml) : Except PyErr Yaml :=
  match v with
  | .map l => .ok ((List.lookup k l).getD d)
  | _ => .error .attributeError

/-- Python iteration `for x in v`: a list yields its elements, a string its
characters, a dict its keys; scalars raise `TypeError`. -/
def pyIter : Yaml → Except PyErr (List Yaml)
  | .seq l => .ok l
  | .str s => .ok (s.data.map (fun c => .str (String.mk [c])))
  | .map l => .ok (l.map (fun p => .str p.1))
  | _ => .error .typeError

mutual
/-- Python `repr` of a YAML value (used by `str` for container elements). -/
def pyRepr : Yaml → String
  | .null => "None"
  | .bool true => "True"
  | .bool false => "False"
  | .int n => toString n
  | .str s => "\x27" ++ s ++ "\x27"
  | .seq l => "[" ++ pyReprSeq l ++ "]"
  | .map l => "\x7b" ++ pyReprMap l ++ "\x7d"

/-- Comma-separated `repr`s of the elements of a list. -/
def pyReprSeq : List Yaml → String
  | [] => ""
  | [x] => pyRepr x
  | x :: xs => pyRepr x ++ ", " ++ pyReprSeq xs

/-- Comma-separated `repr`s of the entries of a dict. -/
def pyReprMap : List (String × Yaml) → String
  | [] => ""
  | [(k, v)] => "\x27" ++ k ++ "\x27: " ++ pyRepr v
  | (k, v) :: xs => "\x27" ++ k ++ "\x27: " ++ pyRepr v ++ ", " ++ pyReprMap xs
end

/-- Python `str` of a YAML value (what an f-string interpolates). -/
def pyStr : Yaml → String
  | .str s => s
  | v => pyRepr v

/-- The root-level violation message of the script. -/
def rootViolationMsg : String :=
  "VIOLATION: Root-level permissions include \x27security-events: write\x27. " ++
  "This permission should be defined at the job-level for jobs using CodeQL analyze."

/-- Message for a job whose `permissions` value is not a mapping. -/
def jobInvalidPermsMsg (name : String) : String :=
  "VIOLATION: Job \x27" ++ (name ++ "\x27 does not have proper permissions configuration")

/-- Message for a job whose `permissions` mapping lacks `security-events`. -/
def jobLacksMsg (name : String) : String :=
  "VIOLATION: Job \x27" ++
  (name ++ "\x27 uses CodeQL analyze but lacks \x27security-events\x27 permission")

/-- Message for a job whose `security-events` value is not `"write"`. -/
def jobMismatchMsg (name : String) (v : Yaml) : String :=
  "VIOLATION: Job \x27" ++
  (name ++ ("\x27 has \x27security-events: " ++
    (pyStr v ++ "\x27 but should be \x27security-events: write\x27")))

/-- The action reference that marks a CodeQL analyze step. -/
def analyzeNeedle : String := "github/codeql-action/analyze"

/-- The inner `for step in job_config[\x27steps\x27]` loop: `True` as soon as a
step is a dict with a `uses` entry whose value contains the needle (`break`),
propagating the `TypeError` that `in` raises on a non-container `uses`. -/
def scanSteps : List Yaml → Except PyErr Bool
  | [] => .ok false
  | step :: rest =>
    match step with
    | .map l =>
      match List.lookup "uses" l with
      | some u =>
        match pyIn analyzeNeedle u with
        | .error e => .error e
        | .ok true => .ok true
        | .ok false => scanSteps rest
      | none => scanSteps rest
    | _ => scanSteps rest

/-- The job-scanning loop: the names (in mapping order) of the jobs that have
a `steps` entry with a CodeQL analyze step. -/
def findCodeqlJobs : List (String × Yaml) → Except PyErr (List String)
  | [] => .ok []
  | (name, cfg) :: rest =>
    match pyIn "steps" cfg with
    | .error e => .error e
    | .ok true =>
      match pyGetItem cfg "steps" with
      | .error e => .error e
      | .ok stepsVal =>
        match pyIter stepsVal with
        | .error e => .error e
        | .ok steps =>
          match scanSteps steps with
          | .error e => .error e
          | .ok b =>
            match findCodeqlJobs rest with
            | .error e => .error e
            | .ok names => .ok (if b then name :: names else names)
    | .ok false =>
      match findCodeqlJobs rest with
      | .error e => .error e
      | .ok names => .ok names

/-- The root-level permissions check: a violation exactly when
`workflow.get(\x27permissions\x27, \x7b\x7d)` is a dict whose
`security-events` entry equals `"write"`. -/
def rootCheck (workflow : Yaml) : Except PyErr (List String) :=
  match pyGet workflow "permissions" (.map []) with
  | .error e => .error e
  | .ok rootPerms =>
    match rootPerms with
    | .map l =>
      match List.lookup "security-events" l with
      | some v => if v.eqStr "write" then .ok [rootViolationMsg] else .ok []
      | none => .ok []
    | _ => .ok []

/-- The body of the job-level loop for one CodeQL job: at most one violation,
chosen among non-dict permissions / missing key / wrong value. -/
def checkJobPermissions (name : String) (cfg : Yaml) : Except PyErr (List String) :=
  match pyGet cfg "permissions" (.map []) with
  | .error e => .error e
  | .ok perms =>
    match perms with
    | .map l =>
      match List.lookup "security-events" l with
      | none => .ok [jobLacksMsg name]
      | some v => if v.eqStr "write" then .ok [] else .ok [jobMismatchMsg name v]
    | _ => .ok [jobInvalidPermsMsg name]

/-- The job-level loop over the previously collected CodeQL job names,
re-indexing `workflow[\x27jobs\x27][job_name]` as the source does. -/
def jobLevel (workflow : Yaml) : List String → Except PyErr (List String)
  | [] => .ok []
  | name :: rest =>
    match pyGetItem workflow "jobs" with
    | .error e => .error e
    | .ok jobsVal =>
      match pyGetItem jobsVal name with
      | .error e => .error e
      | .ok cfg =>
        match checkJobPermissions name cfg with
        | .error e => .error e
        | .ok v =>
          match jobLevel workflow rest with
          | .error e => .error e
          | .ok vs => .ok (v ++ vs)

/-- `validate_codeql_permissions` on an already-parsed document: the result is
`(is_valid, violations)`, or the Python exception the traversal raises. -/
def validate (workflow : Yaml) : Except PyErr (Bool × List String) :=
  if workflow.truthy then
    match pyIn "jobs" workflow with
    | .error e => .error e
    | .ok false => .ok (true, [])
    | .ok true =>
      match pyGetItem workflow "jobs" with
      | .error e => .error e
      | .ok jobsVal =>
        match pyItems jobsVal with
        | .error e => .error e
        | .ok jobs =>
          match findCodeqlJobs jobs with
          | .error e => .error e
          | .ok cjobs =>
            if cjobs.isEmpty then .ok (true, [])
            else
              match rootCheck workflow with
              | .error e => .error e
              | .ok rootViols =>
                match jobLevel workflow cjobs with
                | .error e => .error e
                | .ok jobViols =>
                  .ok ((rootViols ++ jobViols).isEmpty, rootViols ++ jobViols)
  else .ok (true, [])

/-! ### Well-shaped documents

The data model of a workflow document: the document is a mapping (or a falsy
value), `jobs` maps names to mappings, `steps` is a sequence, `uses` is a
string.  `permissions` values are deliberately unconstrained. -/

/-- A step whose `uses` entry, when present, is a string. -/
def stepOk : Yaml → Bool
  | .map l =>
    match List.lookup "uses" l with
    | some (.str _) => true
    | some _ => false
    | none => true
  | _ => true

/-- A job body that is a mapping whose `steps` entry, when present, is a
sequence of well-shaped steps. -/
def jobOk : Yaml → Bool
  | .map m =>
    match List.lookup "steps" m with
    | some (.seq steps) => steps.all stepOk
    | some _ => false
    | none => true
  | _ => false

/-- A document that is a mapping whose `jobs` entry, when present, is a
mapping of well-shaped jobs — or any falsy value. -/
def wellShaped : Yaml → Bool
  | .map l =>
    match List.lookup "jobs" l with
    | none => true
    | some (.map jobs) => jobs.all (fun p => jobOk p.2)
    | some _ => false
  | w => !w.truthy

/-- A step that is a mapping whose `uses` entry is a string containing the
CodeQL analyze needle. -/
def stepMatchesAnalyze : Yaml → Bool
  | .map l =>
    match List.lookup "uses" l with
    | some (.str s) => pySubstr analyzeNeedle s
    | _ => false
  | _ => false

/-- A job body with a step sequence containing a CodeQL analyze step. -/
def jobHasAnalyzeStep : Yaml → Bool
  | .map m =>
    match List.lookup "steps" m with
    | some (.seq steps) => steps.any stepMatchesAnalyze
    | _ => false
  | _ => false

/-- A document with at least one job that has a CodeQL analyze step. -/
def docHasCodeqlStep : Yaml → Bool
  | .map l =>
    match List.lookup "jobs" l with
    | some (.map jobs) => jobs.any (fun p => jobHasAnalyzeStep p.2)
    | _ => false
  | _ => false

/-! ### Example documents used as concrete instances -/

/-- A step invoking the CodeQL analyze action. -/
def exStepAnalyze : Yaml := .map [("uses", .str "github/codeql-action/analyze@v3")]

/-- Workflow with root-level `security-events: write` and one CodeQL job
without a `permissions` key. -/
def exRootWrite : List (String × Yaml) :=
  [("permissions", .map [("security-events", .str "write")]),
   ("jobs", .map [("scan", .map [("steps", .seq [exStepAnalyze])])])]

/-- Workflow with root-level `security-events: read` and one correctly
configured CodeQL job. -/
def exRootRead : List (String × Yaml) :=
  [("permissions", .map [("security-events", .str "read")]),
   ("jobs", .map [("scan", .map [("steps", .seq [exStepAnalyze]),
     ("permissions", .map [("security-events", .str "write")])])])]

/-- Well-shaped workflow whose job-level `permissions` value is not a mapping. -/
def exBadPerms : List (String × Yaml) :=
  [("jobs", .map [("scan", .map [("steps", .seq [exStepAnalyze]),
     ("permissions", Yaml.null)])])]

/-- Workflow with permissions everywhere but no CodeQL analyze step. -/
def exNoCodeql : List (String × Yaml) :=
  [("permissions", .map [("security-events", .str "write")]),
   ("jobs", .map [("lint", .map [("steps",
     .seq [.map [("uses", .str "github/codeql-action/upload-sarif@v3")]]),
     ("permissions", .map [("security-events", .str "none")])])])]

/-! ### Substring lemmas -/

theorem data_append (s t : String) : (s ++ t).data = s.data ++ t.data := rfl

theorem startsWithL_self_append (n s : List Char) : startsWithL n (n ++ s) = true := by
  induction n with
  | nil => rfl
  | cons c n ih => simp [startsWithL, ih]

theorem hasSubL_self_append (n s : List Char) : hasSubL n (n ++ s) = true := by
  cases n with
  | nil =>
    cases s with
    | nil => rfl
    | cons b bs => simp [hasSubL, startsWithL]
  | cons c n =>
    simp [hasSubL, startsWithL, startsWithL_self_append]

theorem hasSubL_append_right (p n s : List Char) (h : hasSubL n s = true) :
    hasSubL n (p ++ s) = true := by
  induction p with
  | nil => simpa using h
  | cons a p ih => simp [hasSubL, ih]

theorem pySubstr_mid (a x y : String) : pySubstr a (x ++ (a ++ y)) = true := by
  show hasSubL a.data (x ++ (a ++ y)).data = true
  rw [data_append, data_append]
  exact hasSubL_append_right _ _ _ (hasSubL_self_append _ _)

theorem pySubstr_right (n p s : String) (h : pySubstr n s = true) :
    pySubstr n (p ++ s) = true := by
  show hasSubL n.data (p ++ s).data = true
  rw [data_append]
  exact hasSubL_append_right _ _ _ h

/-! ### Violation-message shape lemmas -/

theorem jobPrefixed_ne_root (t : String) :
    "VIOLATION: Job \x27" ++ t ≠ rootViolationMsg := by
  intro h
  have hd : ("VIOLATION: Job \x27" : String).data ++ t.data = rootViolationMsg.data :=
    congrArg String.data h
  have h12 : List.take 12 (("VIOLATION: Job \x27" : String).data ++ t.data) =
      List.take 12 rootViolationMsg.data := by rw [hd]
  rw [List.take_append_of_le_length (by decide)] at h12
  exact absurd h12 (by decide)

theorem checkJobPermissions_shape (name : String) (cfg : Yaml) (vs : List String)
    (h : checkJobPermissions name cfg = .ok vs) :
    vs = [] ∨ vs = [jobInvalidPermsMsg name] ∨ vs = [jobLacksMsg name] ∨
      ∃ v, vs = [jobMismatchMsg name v] := by
  unfold checkJobPermissions pyGet at h
  cases cfg <;> simp_all
  split at h
  · split at h
    · simp_all
    · split at h
      · simp_all
      · simp only [Except.ok.injEq] at h
        exact Or.inr (Or.inr (Or.inr ⟨_, h.symm⟩))
  · simp_all

theorem checkJobPermissions_not_root (name : String) (cfg : Yaml) (vs : List String)
    (h : checkJobPermissions name cfg = .ok vs) : rootViolationMsg ∉ vs := by
  rcases checkJobPermissions_shape name cfg vs h with h1 | h1 | h1 | ⟨v, h1⟩ <;> subst h1
  · simp
  · simpa using fun h2 => jobPrefixed_ne_root _ h2.symm
  · simpa using fun h2 => jobPrefixed_ne_root _ h2.symm
  · simpa using fun h2 => jobPrefixed_ne_root _ h2.symm

theorem jobLevel_not_root (w : Yaml) (names : List String) (jv : List String)
    (h : jobLevel w names = .ok jv) : rootViolationMsg ∉ jv := by
  induction names generalizing jv with
  | nil =>
    unfold jobLevel at h
    simp only [Except.ok.injEq] at h
    subst h; simp
  | cons name rest ih =>
    unfold jobLevel at h
    split at h
    · exact absurd h (by simp)
    · split at h
      · exact absurd h (by simp)
      · split at h
        · exact absurd h (by simp)
        · split at h
          · exact absurd h (by simp)
          · simp only [Except.ok.injEq] at h
            subst h
            intro hmem
            rcases List.mem_append.mp hmem with hmem | hmem
            · have := checkJobPermissions_not_root _ _ _ (by assumption)
              exact this hmem
            · exact ih _ (by assumption) hmem

/-! ### The main path of `validate` -/

theorem validate_run (w jobs : List (String × Yaml)) (cj rv jv : List String)
    (hjobs : List.lookup "jobs" w = some (.map jobs))
    (hfind : findCodeqlJobs jobs = .ok cj)
    (hne : cj ≠ [])
    (hroot : rootCheck (.map w) = .ok rv)
    (hjl : jobLevel (.map w) cj = .ok jv) :
    validate (.map w) = .ok ((rv ++ jv).isEmpty, rv ++ jv) := by
  have hw : w ≠ [] := by
    rintro rfl
    simp [List.lookup] at hjobs
  have ht : Yaml.truthy (.map w) = true := by
    cases w with
    | nil => exact absurd rfl hw
    | cons a l => rfl
  have hce : cj.isEmpty = false := by
    cases cj with
    | nil => exact absurd rfl hne
    | cons a l => rfl
  unfold validate
  rw [ht]
  simp only [if_true, pyIn, hjobs, Option.isSome_some, pyGetItem, pyItems, hfind, hce,
    Bool.false_eq_true, if_false, hroot, hjl]

/-! ### Root-check outcomes -/

theorem rootCheck_write (w : List (String × Yaml)) (p : List (String × Yaml))
    (hperm : List.lookup "permissions" w = some (.map p))
    (hse : List.lookup "security-events" p = some (.str "write")) :
    rootCheck (.map w) = .ok [rootViolationMsg] := by
  unfold rootCheck pyGet
  simp [hperm, hse, Yaml.eqStr]

theorem rootCheck_none (w : List (String × Yaml))
    (h : ∀ v, List.lookup "permissions" w = some v →
      v.isMap = false ∨
        ∃ p, v = .map p ∧
          ∀ sv, List.lookup "security-events" p = some sv → sv.eqStr "write" = false) :
    rootCheck (.map w) = .ok [] := by
  unfold rootCheck pyGet
  cases hperm : List.lookup "permissions" w with
  | none => simp [hperm, List.lookup]
  | some v =>
    rcases h v hperm with hv | ⟨p, rfl, hp⟩
    · cases v with
      | map p => simp [Yaml.isMap] at hv
      | null => simp [hperm]
      | bool b => simp [hperm]
      | int n => simp [hperm]
      | str s => simp [hperm]
      | seq l => simp [hperm]
    · cases hse : List.lookup "security-events" p with
      | none => simp [hperm, hse]
      | some sv => simp [hperm, hse, hp sv hse]

theorem rootCheck_total (w : List (String × Yaml)) :
    ∃ rv, rootCheck (.map w) = .ok rv := by
  unfold rootCheck pyGet
  cases hperm : (List.lookup "permissions" w).getD (.map []) with
  | map l =>
    cases hse : List.lookup "security-events" l with
    | none => exact ⟨[], by simp [hperm, hse]⟩
    | some v =>
      cases hv : v.eqStr "write" with
      | true => exact ⟨[rootViolationMsg], by simp [hperm, hse, hv]⟩
      | false => exact ⟨[], by simp [hperm, hse, hv]⟩
  | null => exact ⟨[], by simp [hperm]⟩
  | bool b => exact ⟨[], by simp [hperm]⟩
  | int n => exact ⟨[], by simp [hperm]⟩
  | str s => exact ⟨[], by simp [hperm]⟩
  | seq l => exact ⟨[], by simp [hperm]⟩

/-! ### Totality on well-shaped documents -/

theorem checkJobPermissions_total (name : String) (m : List (String × Yaml)) :
    ∃ vs, checkJobPermissions name (.map m) = .ok vs := by
  unfold checkJobPermissions pyGet
  cases hperm : (List.lookup "permissions" m).getD (.map []) with
  | map l =>
    cases hse : List.lookup "security-events" l with
    | none => exact ⟨[jobLacksMsg name], by simp [hperm, hse]⟩
    | some v =>
      cases hv : v.eqStr "write" with
      | true => exact ⟨[], by simp [hperm, hse, hv]⟩
      | false => exact ⟨[jobMismatchMsg name v], by simp [hperm, hse, hv]⟩
  | null => exact ⟨[jobInvalidPermsMsg name], by simp [hperm]⟩
  | bool b => exact ⟨[jobInvalidPermsMsg name], by simp [hperm]⟩
  | int n => exact ⟨[jobInvalidPermsMsg name], by simp [hperm]⟩
  | str s => exact ⟨[jobInvalidPermsMsg name], by simp [hperm]⟩
  | seq l => exact ⟨[jobInvalidPermsMsg name], by simp [hperm]⟩

theorem scanSteps_total (steps : List Yaml) (h : steps.all stepOk = true) :
    ∃ b, scanSteps steps = .ok b := by
  induction steps with
  | nil => exact ⟨false, rfl⟩
  | cons step rest ih =>
    rw [List.all_cons, Bool.and_eq_true] at h
    obtain ⟨hs, hrest⟩ := h
    obtain ⟨b, hb⟩ := ih hrest
    cases step with
    | map l =>
      cases hu : List.lookup "uses" l with
      | none => exact ⟨b, by simp only [scanSteps, hu]; exact hb⟩
      | some u =>
        cases u with
        | str s =>
          cases hin : pySubstr analyzeNeedle s with
          | true => exact ⟨true, by simp [scanSteps, hu, pyIn, hin]⟩
          | false => exact ⟨b, by simp only [scanSteps, hu, pyIn, hin]; exact hb⟩
        | null => simp [stepOk, hu] at hs
        | bool x => simp [stepOk, hu] at hs
        | int x => simp [stepOk, hu] at hs
        | seq x => simp [stepOk, hu] at hs
        | map x => simp [stepOk, hu] at hs
    | null => exact ⟨b, hb⟩
    | bool x => exact ⟨b, hb⟩
    | int x => exact ⟨b, hb⟩
    | str x => exact ⟨b, hb⟩
    | seq x => exact ⟨b, hb⟩

theorem scanSteps_none (steps : List Yaml) (hok : steps.all stepOk = true)
    (hno : steps.any stepMatchesAnalyze = false) : scanSteps steps = .ok false := by
  induction steps with
  | nil => rfl
  | cons step rest ih =>
    rw [List.all_cons, Bool.and_eq_true] at hok
    rw [List.any_cons, Bool.or_eq_false_iff] at hno
    obtain ⟨hs, hrest⟩ := hok
    obtain ⟨hm, hnorest⟩ := hno
    have htail := ih hrest hnorest
    cases step with
    | map l =>
      cases hu : List.lookup "uses" l with
      | none => simp only [scanSteps, hu]; exact htail
      | some u =>
        cases u with
        | str s =>
          have hps : pySubstr analyzeNeedle s = false := by
            simp only [stepMatchesAnalyze, hu] at hm
            exact hm
          simp only [scanSteps, hu, pyIn, hps]
          exact htail
        | null => simp [stepOk, hu] at hs
        | bool x => simp [stepOk, hu] at hs
        | int x => simp [stepOk, hu] at hs
        | seq x => simp [stepOk, hu] at hs
        | map x => simp [stepOk, hu] at hs
    | null => exact htail
    | bool x => exact htail
    | int x => exact htail
    | str x => exact htail
    | seq x => exact htail

theorem findCodeqlJobs_total (jobs : List (String × Yaml))
    (h : jobs.all (fun p => jobOk p.2) = true) :
    ∃ cj, findCodeqlJobs jobs = .ok cj ∧
      ∀ n ∈ cj, ∃ m, List.lookup n jobs = some (.map m) := by
  induction jobs with
  | nil => exact ⟨[], rfl, by simp⟩
  | cons job rest ih =>
    obtain ⟨name, cfg⟩ := job
    rw [List.all_cons, Bool.and_eq_true] at h
    obtain ⟨hj, hrest⟩ := h
    obtain ⟨cj, hcj, hmem⟩ := ih hrest
    have hlook : ∀ n ∈ cj, ∃ m2, List.lookup n ((name, cfg) :: rest) = some (.map m2) := by
      intro n hn
      obtain ⟨m2, hm2⟩ := hmem n hn
      cases heq : n == name with
      | true =>
        refine ⟨?_, ?_⟩
        · exact match cfg, hj with
          | .map m, _ => m
        · cases cfg with
          | map m => simp [List.lookup, heq]
          | null => simp [jobOk] at hj
          | bool x => simp [jobOk] at hj
          | int x => simp [jobOk] at hj
          | str x => simp [jobOk] at hj
          | seq x => simp [jobOk] at hj
      | false => exact ⟨m2, by simp [List.lookup, heq, hm2]⟩
    cases cfg with
    | map m =>
      cases hst : List.lookup "steps" m with
      | none =>
        refine ⟨cj, ?_, hlook⟩
        simp only [findCodeqlJobs, pyIn, hst, Option.isSome_none, hcj]
      | some sv =>
        cases sv with
        | seq steps =>
          have hsteps : steps.all stepOk = true := by
            simp only [jobOk, hst] at hj
            exact hj
          obtain ⟨b, hb⟩ := scanSteps_total steps hsteps
          cases b with
          | false =>
            refine ⟨cj, ?_, hlook⟩
            simp [findCodeqlJobs, pyIn, hst, pyGetItem, pyIter, hb, hcj]
          | true =>
            refine ⟨name :: cj, ?_, ?_⟩
            · simp [findCodeqlJobs, pyIn, hst, pyGetItem, pyIter, hb, hcj]
            · intro n hn
              rcases List.mem_cons.mp hn with rfl | hn
              · exact ⟨m, by simp [List.lookup]⟩
              · exact hlook n hn
        | null => simp [jobOk, hst] at hj
        | bool x => simp [jobOk, hst] at hj
        | int x => simp [jobOk, hst] at hj
        | str x => simp [jobOk, hst] at hj
        | map x => simp [jobOk, hst] at hj
    | null => simp [jobOk] at hj
    | bool x => simp [jobOk] at hj
    | int x => simp [jobOk] at hj
    | str x => simp [jobOk] at hj
    | seq x => simp [jobOk] at hj

theorem findCodeqlJobs_none (jobs : List (String × Yaml))
    (hok : jobs.all (fun p => jobOk p.2) = true)
    (hno : jobs.any (fun p => jobHasAnalyzeStep p.2) = false) :
    findCodeqlJobs jobs = .ok [] := by
  induction jobs with
  | nil => rfl
  | cons job rest ih =>
    obtain ⟨name, cfg⟩ := job
    rw [List.all_cons, Bool.and_eq_true] at hok
    rw [List.any_cons, Bool.or_eq_false_iff] at hno
    obtain ⟨hj, hrest⟩ := hok
    obtain ⟨hm, hnorest⟩ := hno
    have htail := ih hrest hnorest
    cases cfg with
    | map m =>
      cases hst : List.lookup "steps" m with
      | none => simp [findCodeqlJobs, pyIn, hst, htail]
      | some sv =>
        cases sv with
        | seq steps =>
          have hsteps : steps.all stepOk = true := by
            simp only [jobOk, hst] at hj
            exact hj
          have hnosteps : steps.any stepMatchesAnalyze = false := by
            simp only [jobHasAnalyzeStep, hst] at hm
            exact hm
          have hscan := scanSteps_none steps hsteps hnosteps
          simp [findCodeqlJobs, pyIn, hst, pyGetItem, pyIter, hscan, htail]
        | null => simp [jobOk, hst] at hj
        | bool x => simp [jobOk, hst] at hj
        | int x => simp [jobOk, hst] at hj
        | str x => simp [jobOk, hst] at hj
        | map x => simp [jobOk, hst] at hj
    | null => simp [jobOk] at hj
    | bool x => simp [jobOk] at hj
    | int x => simp [jobOk] at hj
    | str x => simp [jobOk] at hj
    | seq x => simp [jobOk] at hj

theorem jobLevel_total (w jobs : List (String × Yaml)) (names : List String)
    (hjobs : List.lookup "jobs" w = some (.map jobs))
    (h : ∀ n ∈ names, ∃ m, List.lookup n jobs = some (.map m)) :
    ∃ jv, jobLevel (.map w) names = .ok jv := by
  induction names with
  | nil => exact ⟨[], rfl⟩
  | cons name rest ih =>
    obtain ⟨jv, hjv⟩ := ih (fun n hn => h n (List.mem_cons_of_mem _ hn))
    obtain ⟨m, hm⟩ := h name (List.mem_cons_self _ _)
    obtain ⟨vs, hvs⟩ := checkJobPermissions_total name m
    exact ⟨vs ++ jv, by simp only [jobLevel, pyGetItem, hjobs, hm, hvs, hjv]⟩

theorem findCodeqlJobs_names (jobs : List (String × Yaml)) (cj : List String)
    (h : findCodeqlJobs jobs = .ok cj) : ∀ n ∈ cj, n ∈ jobs.map Prod.fst := by
  induction jobs generalizing cj with
  | nil =>
    unfold findCodeqlJobs at h
    simp only [Except.ok.injEq] at h
    subst h
    simp
  | cons job rest ih =>
    obtain ⟨name, cfg⟩ := job
    unfold findCodeqlJobs at h
    cases hin : pyIn "steps" cfg with
    | error e => simp [hin] at h
    | ok inb =>
      simp only [hin] at h
      cases inb with
      | false =>
        cases hfr : findCodeqlJobs rest with
        | error e => simp [hfr] at h
        | ok names =>
          simp only [hfr, Except.ok.injEq] at h
          subst h
          intro n hn
          exact List.mem_cons_of_mem _ (ih names hfr n hn)
      | true =>
        cases hgi : pyGetItem cfg "steps" with
        | error e => simp [hgi] at h
        | ok sv =>
          simp only [hgi] at h
          cases hit : pyIter sv with
          | error e => simp [hit] at h
          | ok steps =>
            simp only [hit] at h
            cases hsc : scanSteps steps with
            | error e => simp [hsc] at h
            | ok b =>
              simp only [hsc] at h
              cases hfr : findCodeqlJobs rest with
              | error e => simp [hfr] at h
              | ok names =>
                simp only [hfr, Except.ok.injEq] at h
                subst h
                intro n hn
                cases b with
                | false => exact List.mem_cons_of_mem _ (ih names hfr n hn)
                | true =>
                  simp only [if_true] at hn
                  rcases List.mem_cons.mp hn with rfl | hn
                  · exact List.mem_cons_self _ _
                  · exact List.mem_cons_of_mem _ (ih names hfr n hn)

theorem findCodeqlJobs_nodup (jobs : List (String × Yaml)) (cj : List String)
    (h : findCodeqlJobs jobs = .ok cj) (hnd : (jobs.map Prod.fst).Nodup) : cj.Nodup := by
  induction jobs generalizing cj with
  | nil =>
    unfold findCodeqlJobs at h
    simp only [Except.ok.injEq] at h
    subst h
    exact List.nodup_nil
  | cons job rest ih =>
    obtain ⟨name, cfg⟩ := job
    rw [List.map_cons, List.nodup_cons] at hnd
    obtain ⟨hname, hrest⟩ := hnd
    unfold findCodeqlJobs at h
    cases hin : pyIn "steps" cfg with
    | error e => simp [hin] at h
    | ok inb =>
      simp only [hin] at h
      cases inb with
      | false =>
        cases hfr : findCodeqlJobs rest with
        | error e => simp [hfr] at h
        | ok names =>
          simp only [hfr, Except.ok.injEq] at h
          subst h
          exact ih names hfr hrest
      | true =>
        cases hgi : pyGetItem cfg "steps" with
        | error e => simp [hgi] at h
        | ok sv =>
          simp only [hgi] at h
          cases hit : pyIter sv with
          | error e => simp [hit] at h
          | ok steps =>
            simp only [hit] at h
            cases hsc : scanSteps steps with
            | error e => simp [hsc] at h
            | ok b =>
              simp only [hsc] at h
              cases hfr : findCodeqlJobs rest with
              | error e => simp [hfr] at h
              | ok names =>
                simp only [hfr, Except.ok.injEq] at h
                subst h
                cases b with
                | false => exact ih names hfr hrest
                | true =>
                  simp only [if_true]
                  rw [List.nodup_cons]
                  exact ⟨fun hmem => hname (findCodeqlJobs_names rest names hfr name hmem),
                    ih names hfr hrest⟩

theorem validate_falsy (w : Yaml) (h : w.truthy = false) :
    validate w = .ok (true, []) := by
  unfold validate
  rw [h]
  simp

theorem validate_nojobs (l : List (String × Yaml)) (h : List.lookup "jobs" l = none) :
    validate (.map l) = .ok (true, []) := by
  cases l with
  | nil => rfl
  | cons a t =>
    unfold validate
    simp [Yaml.truthy, pyIn, h]

theorem validate_no_codeql (l jobs : List (String × Yaml))
    (hjobs : List.lookup "jobs" l = some (.map jobs))
    (hfind : findCodeqlJobs jobs = .ok []) :
    validate (.map l) = .ok (true, []) := by
  have hlne : l ≠ [] := by
    rintro rfl
    simp [List.lookup] at hjobs
  have htr : Yaml.truthy (.map l) = true := by
    cases l with
    | nil => exact absurd rfl hlne
    | cons a t => rfl
  unfold validate
  rw [htr]
  simp only [if_true, pyIn, hjobs, Option.isSome_some, pyGetItem, pyItems, hfind,
    List.isEmpty_nil, if_true]

theorem wellShaped_not_map_truthy (w : Yaml) (hm : w.isMap = false)
    (h : wellShaped w = true) : w.truthy = false := by
  cases w <;> simp_all [wellShaped, Yaml.isMap, Yaml.truthy]

/-! ### Claim theorems -/

/-- Claim C1: for a CodeQL-analyze job whose job-level `permissions` is a
mapping containing `security-events`, the per-job check emits zero violations
when the value is exactly the string `"write"`, and otherwise emits exactly
one violation whose message names the job and shows the actual value and the
required `"write"`. -/
theorem claim1_job_value_check (name : String) (m p : List (String × Yaml)) (v : Yaml)
    (hperm : List.lookup "permissions" m = some (.map p))
    (hse : List.lookup "security-events" p = some v) :
    checkJobPermissions name (.map m) =
      .ok (if v.eqStr "write" then [] else [jobMismatchMsg name v]) ∧
    pySubstr name (jobMismatchMsg name v) = true ∧
    pySubstr (pyStr v) (jobMismatchMsg name v) = true ∧
    pySubstr "write" (jobMismatchMsg name v) = true := by
  refine ⟨?_, ?_, ?_, ?_⟩
  · unfold checkJobPermissions pyGet
    cases hv : v.eqStr "write" <;> simp [hperm, hse, hv]
  · simp only [jobMismatchMsg]
    exact pySubstr_mid _ _ _
  · simp only [jobMismatchMsg]
    exact pySubstr_right _ _ _ (pySubstr_right _ _ _ (pySubstr_mid _ _ _))
  · simp only [jobMismatchMsg]
    exact pySubstr_right _ _ _ (pySubstr_right _ _ _ (pySubstr_right _ _ _
      (pySubstr_right _ _ _ (by decide))))

/-- Witness for C1 at the job `scan` with `security-events: read`. -/
theorem claim1_witness :
    checkJobPermissions "scan"
        (.map [("permissions", .map [("security-events", .str "read")])]) =
      .ok (if (Yaml.str "read").eqStr "write" then []
           else [jobMismatchMsg "scan" (.str "read")]) ∧
    pySubstr "scan" (jobMismatchMsg "scan" (.str "read")) = true ∧
    pySubstr (pyStr (.str "read")) (jobMismatchMsg "scan" (.str "read")) = true ∧
    pySubstr "write" (jobMismatchMsg "scan" (.str "read")) = true :=
  claim1_job_value_check "scan" _ _ (.str "read") rfl rfl

/-- Claim C2: a root `permissions` mapping with `security-events: write` plus
at least one CodeQL-analyze job yields exactly one root-level violation, and
it precedes every job-level violation, whatever the job-level outcomes are. -/
theorem claim2_root_violation (w p jobs : List (String × Yaml)) (cj jv : List String)
    (hjobs : List.lookup "jobs" w = some (.map jobs))
    (hperm : List.lookup "permissions" w = some (.map p))
    (hse : List.lookup "security-events" p = some (.str "write"))
    (hfind : findCodeqlJobs jobs = .ok cj)
    (hne : cj ≠ [])
    (hjl : jobLevel (.map w) cj = .ok jv) :
    validate (.map w) = .ok (false, rootViolationMsg :: jv) ∧
    rootViolationMsg ∉ jv := by
  have hroot := rootCheck_write w p hperm hse
  have h := validate_run w jobs cj [rootViolationMsg] jv hjobs hfind hne hroot hjl
  simp only [List.cons_append, List.nil_append, List.isEmpty_cons] at h
  exact ⟨h, jobLevel_not_root _ _ _ hjl⟩

/-- Witness for C2 on `exRootWrite`. -/
theorem claim2_witness :
    validate (.map exRootWrite) = .ok (false, rootViolationMsg :: [jobLacksMsg "scan"]) ∧
    rootViolationMsg ∉ [jobLacksMsg "scan"] :=
  claim2_root_violation exRootWrite [("security-events", .str "write")]
    [("scan", .map [("steps", .seq [exStepAnalyze])])] ["scan"] [jobLacksMsg "scan"]
    rfl rfl rfl rfl (by decide) rfl

/-- Claim C3: a CodeQL-analyze job whose `permissions` key is absent, or whose
`permissions` value is not a mapping, gets exactly one violation naming the
job; the message is the missing-permission or the invalid-configuration one. -/
theorem claim3_missing_or_invalid (name : String) (m : List (String × Yaml))
    (h : List.lookup "permissions" m = none ∨
      ∃ v, List.lookup "permissions" m = some v ∧ v.isMap = false) :
    ∃ msg, checkJobPermissions name (.map m) = .ok [msg] ∧
      pySubstr name msg = true ∧
      (msg = jobLacksMsg name ∨ msg = jobInvalidPermsMsg name) := by
  rcases h with h | ⟨v, hv, hvm⟩
  · refine ⟨jobLacksMsg name, ?_, ?_, Or.inl rfl⟩
    · unfold checkJobPermissions pyGet
      simp [h, List.lookup]
    · simp only [jobLacksMsg]
      exact pySubstr_mid _ _ _
  · refine ⟨jobInvalidPermsMsg name, ?_, ?_, Or.inr rfl⟩
    · unfold checkJobPermissions pyGet
      cases v with
      | map p => simp [Yaml.isMap] at hvm
      | null => simp [hv]
      | bool b => simp [hv]
      | int n => simp [hv]
      | str s => simp [hv]
      | seq l => simp [hv]
    · simp only [jobInvalidPermsMsg]
      exact pySubstr_mid _ _ _

/-- Witness for C3 at a job with no `permissions` key. -/
theorem claim3_witness :
    (List.lookup "permissions" ([("steps", Yaml.seq [])] : List (String × Yaml)) = none ∨
      ∃ v, List.lookup "permissions" ([("steps", Yaml.seq [])] : List (String × Yaml)) =
        some v ∧ v.isMap = false) ∧
    ∃ msg, checkJobPermissions "scan" (.map [("steps", Yaml.seq [])]) = .ok [msg] ∧
      pySubstr "scan" msg = true ∧
      (msg = jobLacksMsg "scan" ∨ msg = jobInvalidPermsMsg "scan") :=
  ⟨Or.inl rfl, claim3_missing_or_invalid "scan" [("steps", Yaml.seq [])] (Or.inl rfl)⟩

/-- Claim C4 counterexample: the tree-shaped document
`\x7bjobs: \x7bbuild: null\x7d\x7d` makes `validate` raise `TypeError`
(`\x27steps\x27 in None`), so `validate` does not return a result on every
tree-shaped input. -/
theorem claim4_counterexample :
    validate (.map [("jobs", .map [("build", Yaml.null)])]) = .error .typeError := rfl

/-- Claim C4 (amended): on every well-shaped document — the document a mapping
or falsy, the `jobs` value a mapping, every job body a mapping, `steps` (when
present) a sequence, every step's `uses` (when present) a string, with
`permissions` values of arbitrary shape — `validate` raises nothing and
returns a ValidationResult; a non-mapping `permissions` is treated as missing. -/
theorem claim4_amended_no_raise (w : Yaml) (h : wellShaped w = true) :
    ∃ r, validate w = .ok r := by
  cases w with
  | map l =>
    cases hjobs : List.lookup "jobs" l with
    | none => exact ⟨(true, []), validate_nojobs l hjobs⟩
    | some jv =>
      cases jv with
      | map jobs =>
        have hall : jobs.all (fun p => jobOk p.2) = true := by
          simp only [wellShaped, hjobs] at h
          exact h
        obtain ⟨cj, hcj, hmem⟩ := findCodeqlJobs_total jobs hall
        cases hc : cj with
        | nil => exact ⟨(true, []), validate_no_codeql l jobs hjobs (hc ▸ hcj)⟩
        | cons n rest =>
          obtain ⟨rv, hrv⟩ := rootCheck_total l
          obtain ⟨jvs, hjvs⟩ := jobLevel_total l jobs cj hjobs hmem
          exact ⟨((rv ++ jvs).isEmpty, rv ++ jvs),
            validate_run l jobs cj rv jvs hjobs hcj (by simp [hc]) hrv hjvs⟩
      | null => simp [wellShaped, hjobs] at h
      | bool b => simp [wellShaped, hjobs] at h
      | int n => simp [wellShaped, hjobs] at h
      | str s => simp [wellShaped, hjobs] at h
      | seq x => simp [wellShaped, hjobs] at h
  | null => exact ⟨(true, []), rfl⟩
  | bool b => exact ⟨(true, []), validate_falsy _ (wellShaped_not_map_truthy _ rfl h)⟩
  | int n => exact ⟨(true, []), validate_falsy _ (wellShaped_not_map_truthy _ rfl h)⟩
  | str s => exact ⟨(true, []), validate_falsy _ (wellShaped_not_map_truthy _ rfl h)⟩
  | seq x => exact ⟨(true, []), validate_falsy _ (wellShaped_not_map_truthy _ rfl h)⟩

/-- Witness for the amended C4 on a well-shaped document whose job
`permissions` value is not a mapping. -/
theorem claim4_witness :
    wellShaped (.map exBadPerms) = true ∧ ∃ r, validate (.map exBadPerms) = .ok r :=
  ⟨rfl, claim4_amended_no_raise (.map exBadPerms) rfl⟩

/-- Claim C5: a well-shaped workflow in which no step of any job has a `uses`
string containing the analyze needle validates as valid with no violations,
whatever permissions are configured. -/
theorem claim5_no_codeql_valid (w : Yaml) (hs : wellShaped w = true)
    (hn : docHasCodeqlStep w = false) : validate w = .ok (true, []) := by
  cases w with
  | map l =>
    cases hjobs : List.lookup "jobs" l with
    | none => exact validate_nojobs l hjobs
    | some jv =>
      cases jv with
      | map jobs =>
        have hall : jobs.all (fun p => jobOk p.2) = true := by
          simp only [wellShaped, hjobs] at hs
          exact hs
        have hany : jobs.any (fun p => jobHasAnalyzeStep p.2) = false := by
          simp only [docHasCodeqlStep, hjobs] at hn
          exact hn
        exact validate_no_codeql l jobs hjobs (findCodeqlJobs_none jobs hall hany)
      | null => simp [wellShaped, hjobs] at hs
      | bool b => simp [wellShaped, hjobs] at hs
      | int n => simp [wellShaped, hjobs] at hs
      | str s => simp [wellShaped, hjobs] at hs
      | seq x => simp [wellShaped, hjobs] at hs
  | null => exact validate_falsy _ rfl
  | bool b => exact validate_falsy _ (wellShaped_not_map_truthy _ rfl hs)
  | int n => exact validate_falsy _ (wellShaped_not_map_truthy _ rfl hs)
  | str s => exact validate_falsy _ (wellShaped_not_map_truthy _ rfl hs)
  | seq x => exact validate_falsy _ (wellShaped_not_map_truthy _ rfl hs)

/-- Witness for C5 on `exNoCodeql` (root write permission, upload-sarif step). -/
theorem claim5_witness :
    wellShaped (.map exNoCodeql) = true ∧ docHasCodeqlStep (.map exNoCodeql) = false ∧
    validate (.map exNoCodeql) = .ok (true, []) :=
  ⟨rfl, rfl, claim5_no_codeql_valid (.map exNoCodeql) rfl rfl⟩

/-- Claim C6: a step qualifies exactly on the substring test
(`analyze@v3` and bare `analyze` qualify, `upload-sarif` does not); a
matching step ends the scan at once whatever follows; a job with two matching
steps is collected once; and distinct job names yield a duplicate-free
collection. -/
theorem claim6_step_matching :
    scanSteps [.map [("uses", .str "github/codeql-action/analyze@v3")]] = .ok true ∧
    scanSteps [.map [("uses", .str "github/codeql-action/analyze")]] = .ok true ∧
    scanSteps [.map [("uses", .str "github/codeql-action/upload-sarif")]] = .ok false ∧
    (∀ u rest, pySubstr analyzeNeedle u = true →
      scanSteps (.map [("uses", .str u)] :: rest) = .ok true) ∧
    findCodeqlJobs [("j", .map [("steps", .seq
      [.map [("uses", .str "github/codeql-action/analyze")],
       .map [("uses", .str "github/codeql-action/analyze@v3")]])])] = .ok ["j"] ∧
    (∀ jobs cj, findCodeqlJobs jobs = .ok cj → (jobs.map Prod.fst).Nodup → cj.Nodup) := by
  refine ⟨rfl, rfl, rfl, ?_, rfl, findCodeqlJobs_nodup⟩
  intro u rest hu
  have hlk : List.lookup "uses" [("uses", Yaml.str u)] = some (.str u) := rfl
  simp [scanSteps, hlk, pyIn, hu]

/-- Witness for C6: the scan stops at the first matching step even when a
later step would raise, and a singleton job list is collected duplicate-free. -/
theorem claim6_witness :
    scanSteps [.map [("uses", .str "github/codeql-action/analyze@v3")],
      .map [("uses", Yaml.null)]] = .ok true ∧
    (["scan"] : List String).Nodup :=
  ⟨claim6_step_matching.2.2.2.1 "github/codeql-action/analyze@v3"
      [.map [("uses", Yaml.null)]] (by decide),
   claim6_step_matching.2.2.2.2.2
      [("scan", .map [("steps", .seq [.map [("uses", .str "github/codeql-action/analyze")]])])]
      ["scan"] rfl (by simp)⟩

/-- Claim C7: an empty/absent document, or a mapping without a `jobs` key,
validates as valid with no violations. -/
theorem claim7_no_jobs_valid (w : Yaml)
    (h : w.truthy = false ∨ ∃ l, w = .map l ∧ List.lookup "jobs" l = none) :
    validate w = .ok (true, []) := by
  rcases h with h | ⟨l, rfl, h⟩
  · exact validate_falsy w h
  · exact validate_nojobs l h

/-- Witness for C7 on a nonempty mapping without `jobs`. -/
theorem claim7_witness : validate (.map [("name", .str "ci")]) = .ok (true, []) :=
  claim7_no_jobs_valid (.map [("name", .str "ci")]) (Or.inr ⟨_, rfl, rfl⟩)

/-- Claim C8: whenever `validate` returns, the validity flag is true exactly
when the violation list is empty. -/
theorem claim8_valid_iff_empty (w : Yaml) (b : Bool) (vs : List String)
    (h : validate w = .ok (b, vs)) : b = true ↔ vs = [] := by
  unfold validate at h
  split at h
  · cases hin : pyIn "jobs" w with
    | error e => simp [hin] at h
    | ok bIn =>
      simp only [hin] at h
      cases bIn with
      | false =>
        simp only [Except.ok.injEq, Prod.mk.injEq] at h
        obtain ⟨hb, hv⟩ := h
        subst hb
        subst hv
        simp
      | true =>
        cases hgi : pyGetItem w "jobs" with
        | error e => simp [hgi] at h
        | ok jobsVal =>
          simp only [hgi] at h
          cases hit : pyItems jobsVal with
          | error e => simp [hit] at h
          | ok jobs =>
            simp only [hit] at h
            cases hfc : findCodeqlJobs jobs with
            | error e => simp [hfc] at h
            | ok cj =>
              simp only [hfc] at h
              split at h
              · simp only [Except.ok.injEq, Prod.mk.injEq] at h
                obtain ⟨hb, hv⟩ := h
                subst hb
                subst hv
                simp
              · cases hrc : rootCheck w with
                | error e => simp [hrc] at h
                | ok rv =>
                  simp only [hrc] at h
                  cases hjl : jobLevel w cj with
                  | error e => simp [hjl] at h
                  | ok jv =>
                    simp only [hjl, Except.ok.injEq, Prod.mk.injEq] at h
                    obtain ⟨hb, hv⟩ := h
                    subst hb
                    subst hv
                    exact List.isEmpty_iff
  · simp only [Except.ok.injEq, Prod.mk.injEq] at h
    obtain ⟨hb, hv⟩ := h
    subst hb
    subst hv
    simp

/-- Witness for C8 at the empty document. -/
theorem claim8_witness : (true : Bool) = true ↔ ([] : List String) = [] :=
  claim8_valid_iff_empty .null true [] rfl

/-- Claim C9: `validate` is a pure function of the document — two runs on the
same document give identical results, and the embedding of the source, which
only reads its input, is by construction mutation-free. -/
theorem claim9_deterministic (w : Yaml) : validate w = validate w := rfl

/-- Claim C10: with at least one CodeQL-analyze job, when the root
`permissions` is not a mapping, or lacks `security-events`, or maps it to
anything but the exact string `"write"`, the violation list is exactly the
job-level one: no root-level violation is emitted. -/
theorem claim10_no_root_violation (w jobs : List (String × Yaml)) (cj jv : List String)
    (hjobs : List.lookup "jobs" w = some (.map jobs))
    (hfind : findCodeqlJobs jobs = .ok cj)
    (hne : cj ≠ [])
    (hroot : ∀ v, List.lookup "permissions" w = some v →
      v.isMap = false ∨ ∃ p, v = .map p ∧
        ∀ sv, List.lookup "security-events" p = some sv → sv.eqStr "write" = false)
    (hjl : jobLevel (.map w) cj = .ok jv) :
    validate (.map w) = .ok (jv.isEmpty, jv) ∧ rootViolationMsg ∉ jv := by
  have h := validate_run w jobs cj [] jv hjobs hfind hne (rootCheck_none w hroot) hjl
  simp only [List.nil_append] at h
  exact ⟨h, jobLevel_not_root _ _ _ hjl⟩

/-- Witness for C10 on `exRootRead` (root `security-events: read`). -/
theorem claim10_witness :
    validate (.map exRootRead) = .ok (([] : List String).isEmpty, ([] : List String)) ∧
    rootViolationMsg ∉ ([] : List String) :=
  claim10_no_root_violation exRootRead
    [("scan", .map [("steps", .seq [exStepAnalyze]),
      ("permissions", .map [("security-events", .str "write")])])]
    ["scan"] [] rfl rfl (by decide)
    (by
      intro v hv
      injection hv with hv
      subst hv
      exact Or.inr ⟨_, rfl, by
        intro sv hsv
        injection hsv with hsv
        subst hsv
        decide⟩)
    rfl

end CodeqlVal
